import Mathlib

/-!
Verification of the raydium-pool-trim core (src/main.go) against its
natural-language specification.

The Go program streams two large JSON documents with `encoding/json`'s
token-level `Decoder` API, filters records, and merges the result into an
on-disk aggregate.  We embed the relevant parts shallowly:

* Go strings are Lean `String`s; Go `int` is `Int` (no overflow is relevant).
* A `json.Decoder` positioned in a document is modelled as the list of
  structural tokens (`JTok`) it has yet to deliver: `Decoder.Token()` pops one
  token, `Decoder.More()` inspects the head, `Decoder.Decode(&v)` parses one
  whole JSON value off the stream and unmarshals it.
* `json.Unmarshal` / `Decode` into a struct is modelled field-by-field from
  the `encoding/json` rules the program relies on: unknown object keys are
  ignored, absent keys leave the zero value, `null` leaves strings and ints
  untouched and sets slices to nil, a type mismatch is an error.  (Go also
  matches keys case-insensitively and accepts fractional-free float syntax;
  the documents and claims here only exercise exact camelCase keys and
  integer literals, so the model uses exact keys and integer numbers.)
* Loops are written as fuel-indexed recursions; every iteration of every
  loop consumes at least one token, so fuel `2 * length + 2` never runs out
  on the streams the theorems touch.
-/

/-- Structural JSON tokens as delivered by Go's `json.Decoder.Token()`:
delimiters and scalar values (commas and colons are elided by `Token()`). -/
inductive JTok where
  | lbrace
  | rbrace
  | lbrack
  | rbrack
  | str (s : String)
  | num (n : Int)
  | boolv (b : Bool)
  | null
deriving DecidableEq

/-- Parsed JSON values (the result of reading one whole value off the
stream).  Numbers are integers: the documents in scope carry only integer
numerics. -/
inductive JVal where
  | str (s : String)
  | num (n : Int)
  | boolv (b : Bool)
  | null
  | arr (elems : List JVal)
  | obj (fields : List (String × JVal))

/-- Whether a token is a scalar (a complete one-token JSON value). -/
def JTok.isScalar : JTok → Bool
  | .str _ => true
  | .num _ => true
  | .boolv _ => true
  | .null => true
  | _ => false

/-- The JSON value denoted by a scalar token (delimiters map to a junk
value; only used under `isScalar`). -/
def JTok.toVal : JTok → JVal
  | .str s => .str s
  | .num n => .num n
  | .boolv b => .boolv b
  | _ => .null

/-- Intermediate result of the token-stream parser: a value, an array tail,
or an object tail. -/
inductive PRes where
  | v (v : JVal)
  | vs (l : List JVal)
  | fs (l : List (String × JVal))

/-- Parser mode: parse one value, the remainder of an array, or the
remainder of an object. -/
inductive PMode where
  | val
  | arrTail
  | objTail

/-- Fuel-indexed parser over the token stream; models how
`json.Decoder.Decode` consumes exactly one whole JSON value.  Fuel only
decreases by one per recursive call, and the wrapper `parseVal` supplies
more fuel than the stream is long, so fuel exhaustion never occurs on the
streams reasoned about below. -/
def parseF : Nat → PMode → List JTok → Option (PRes × List JTok)
  | 0, _, _ => none
  | _ + 1, .val, [] => none
  | fuel + 1, .val, t :: rest =>
    match t with
    | .str s => some (.v (.str s), rest)
    | .num n => some (.v (.num n), rest)
    | .boolv b => some (.v (.boolv b), rest)
    | .null => some (.v .null, rest)
    | .lbrack =>
      match parseF fuel .arrTail rest with
      | some (.vs es, r) => some (.v (.arr es), r)
      | _ => none
    | .lbrace =>
      match parseF fuel .objTail rest with
      | some (.fs fs, r) => some (.v (.obj fs), r)
      | _ => none
    | _ => none
  | _ + 1, .arrTail, .rbrack :: rest => some (.vs [], rest)
  | fuel + 1, .arrTail, ts =>
    match parseF fuel .val ts with
    | some (.v v, r) =>
      match parseF fuel .arrTail r with
      | some (.vs vs, r2) => some (.vs (v :: vs), r2)
      | _ => none
    | _ => none
  | _ + 1, .objTail, .rbrace :: rest => some (.fs [], rest)
  | fuel + 1, .objTail, .str k :: ts =>
    match parseF fuel .val ts with
    | some (.v v, r) =>
      match parseF fuel .objTail r with
      | some (.fs fs, r2) => some (.fs ((k, v) :: fs), r2)
      | _ => none
    | _ => none
  | _ + 1, .objTail, _ => none

/-- Read one whole JSON value from the front of the stream (the stream side
of `Decoder.Decode`). -/
def parseVal (ts : List JTok) : Option (JVal × List JTok) :=
  match parseF (2 * ts.length + 2) .val ts with
  | some (.v v, r) => some (v, r)
  | _ => none

/-- Go's `Decoder.More()`: true iff there is a further element in the
current array or object, i.e. the next token exists and is not a closing
delimiter. -/
def decoderMore : List JTok → Bool
  | [] => false
  | t :: _ =>
    match t with
    | .rbrace => false
    | .rbrack => false
    | _ => true

/-- TokenInfo (src/main.go lines 61-66): a token-list record. -/
structure TokenInfo where
  symbol : String
  name : String
  mint : String
  decimals : Int
deriving DecidableEq

/-- RaydiumPool (src/main.go lines 25-43): a liquidity-pool record. -/
structure RaydiumPool where
  id : String
  baseMint : String
  quoteMint : String
  lpMint : String
  programId : String
  authority : String
  openOrders : String
  targetOrders : String
  baseVault : String
  quoteVault : String
  version : Int
  baseDecimals : Int
  quoteDecimals : Int
  lpDecimals : Int
  marketVersion : Int
  marketProgramId : String
  marketId : String
deriving DecidableEq

/-- TokenPoolInfo (src/main.go lines 75-78): one aggregate entry, a token
together with its pools.  (Go's nil and empty pool slices are conflated;
the merge logic never distinguishes them.) -/
structure TokenPoolInfo where
  token : TokenInfo
  pools : List RaydiumPool
deriving DecidableEq

/-- Decoded RaydiumResponse (src/main.go lines 46-50).  The `official` and
`unOfficial` slices are `Option`s because `validateJSON` distinguishes a
nil slice (field absent or JSON `null`) from a present-but-empty array. -/
structure RaydiumResponse where
  name : String
  official : Option (List RaydiumPool)
  unofficial : Option (List RaydiumPool)
deriving DecidableEq

/-- Error taxonomy of the spec: structural JSON violations are `malformed`,
a symbol absent after full traversal is `notFound`. -/
inductive GErr where
  | malformed
  | notFound
deriving DecidableEq

/-- The zero value of `TokenInfo` (what a fresh Go `var token TokenInfo`
holds before unmarshalling). -/
def zeroTokenInfo : TokenInfo :=
  { symbol := "", name := "", mint := "", decimals := 0 }

/-- The zero value of `RaydiumPool`. -/
def zeroPool : RaydiumPool :=
  { id := "", baseMint := "", quoteMint := "", lpMint := "", programId := ""
  , authority := "", openOrders := "", targetOrders := "", baseVault := ""
  , quoteVault := "", version := 0, baseDecimals := 0, quoteDecimals := 0
  , lpDecimals := 0, marketVersion := 0, marketProgramId := "", marketId := "" }

/-- Unmarshal a JSON value into a Go `string` field holding `cur`:
a JSON string replaces it, `null` leaves it, anything else is a type
error. -/
def decodeStrField (v : JVal) (cur : String) : Option String :=
  match v with
  | .str s => some s
  | .null => some cur
  | _ => none

/-- Unmarshal a JSON value into a Go `int` field holding `cur`. -/
def decodeIntField (v : JVal) (cur : Int) : Option Int :=
  match v with
  | .num n => some n
  | .null => some cur
  | _ => none

/-- One field step of unmarshalling into a `TokenInfo` struct: known keys
update their field, unknown keys are ignored. -/
def tokenInfoStep (acc : TokenInfo) (f : String × JVal) : Option TokenInfo :=
  if f.1 = "symbol" then (decodeStrField f.2 acc.symbol).map fun s => { acc with symbol := s }
  else if f.1 = "name" then (decodeStrField f.2 acc.name).map fun s => { acc with name := s }
  else if f.1 = "mint" then (decodeStrField f.2 acc.mint).map fun s => { acc with mint := s }
  else if f.1 = "decimals" then (decodeIntField f.2 acc.decimals).map fun n => { acc with decimals := n }
  else some acc

/-- Unmarshal a JSON value into a `TokenInfo` starting from `cur` (Go
unmarshals objects into the existing struct value; `null` is a no-op). -/
def decodeTokenInfoInto (cur : TokenInfo) (v : JVal) : Option TokenInfo :=
  match v with
  | .obj fs => fs.foldlM tokenInfoStep cur
  | .null => some cur
  | _ => none

/-- Unmarshal a JSON value into a fresh `TokenInfo` (what
`decoder.Decode(&token)` does, src/main.go lines 360-363). -/
def decodeTokenInfo (v : JVal) : Option TokenInfo :=
  decodeTokenInfoInto zeroTokenInfo v

/-- One field step of unmarshalling into a `RaydiumPool` struct. -/
def poolStep (acc : RaydiumPool) (f : String × JVal) : Option RaydiumPool :=
  if f.1 = "id" then (decodeStrField f.2 acc.id).map fun s => { acc with id := s }
  else if f.1 = "baseMint" then (decodeStrField f.2 acc.baseMint).map fun s => { acc with baseMint := s }
  else if f.1 = "quoteMint" then (decodeStrField f.2 acc.quoteMint).map fun s => { acc with quoteMint := s }
  else if f.1 = "lpMint" then (decodeStrField f.2 acc.lpMint).map fun s => { acc with lpMint := s }
  else if f.1 = "programId" then (decodeStrField f.2 acc.programId).map fun s => { acc with programId := s }
  else if f.1 = "authority" then (decodeStrField f.2 acc.authority).map fun s => { acc with authority := s }
  else if f.1 = "openOrders" then (decodeStrField f.2 acc.openOrders).map fun s => { acc with openOrders := s }
  else if f.1 = "targetOrders" then (decodeStrField f.2 acc.targetOrders).map fun s => { acc with targetOrders := s }
  else if f.1 = "baseVault" then (decodeStrField f.2 acc.baseVault).map fun s => { acc with baseVault := s }
  else if f.1 = "quoteVault" then (decodeStrField f.2 acc.quoteVault).map fun s => { acc with quoteVault := s }
  else if f.1 = "version" then (decodeIntField f.2 acc.version).map fun n => { acc with version := n }
  else if f.1 = "baseDecimals" then (decodeIntField f.2 acc.baseDecimals).map fun n => { acc with baseDecimals := n }
  else if f.1 = "quoteDecimals" then (decodeIntField f.2 acc.quoteDecimals).map fun n => { acc with quoteDecimals := n }
  else if f.1 = "lpDecimals" then (decodeIntField f.2 acc.lpDecimals).map fun n => { acc with lpDecimals := n }
  else if f.1 = "marketVersion" then (decodeIntField f.2 acc.marketVersion).map fun n => { acc with marketVersion := n }
  else if f.1 = "marketProgramId" then (decodeStrField f.2 acc.marketProgramId).map fun s => { acc with marketProgramId := s }
  else if f.1 = "marketId" then (decodeStrField f.2 acc.marketId).map fun s => { acc with marketId := s }
  else some acc

/-- Unmarshal a JSON value into a fresh `RaydiumPool` (what
`decoder.Decode(&pool)` does, src/main.go lines 262-264). -/
def decodeRaydiumPool (v : JVal) : Option RaydiumPool :=
  match v with
  | .obj fs => fs.foldlM poolStep zeroPool
  | .null => some zeroPool
  | _ => none

/-- The reference quote mint constant (src/main.go line 18): wrapped SOL. -/
def defaultQuoteMint : String := "So11111111111111111111111111111111111111112"

/-- ASCII uppercase of one character, as `strings.ToUpper` acts on the
ASCII symbols in scope (Go is Unicode-aware; the claims and documents only
exercise ASCII). -/
def goUpperChar (c : Char) : Char :=
  if 97 ≤ c.toNat ∧ c.toNat ≤ 122 then Char.ofNat (c.toNat - 32) else c

/-- Model of `strings.ToUpper`. -/
def goToUpper (s : String) : String :=
  ⟨s.data.map goUpperChar⟩

/-- Model of `strings.TrimPrefix(s, "$")`: drop one leading dollar sign if
present. -/
def goTrimDollar (s : String) : String :=
  match s.data with
  | '$' :: rest => ⟨rest⟩
  | _ => s

/-- The query-symbol normalization of src/main.go line 334:
`strings.ToUpper(strings.TrimPrefix(symbol, "$"))`. -/
def goNormalize (s : String) : String :=
  goToUpper (goTrimDollar s)

/-- Element loop of `getTokenAddress` (src/main.go lines 354-372): while
`More()`, `Decode` one `TokenInfo` and collect it when its symbol equals
the normalized query.  (`tokenCount` and the progress prints are
observer-only and elided.) -/
def gtaElemsF : Nat → String → List JTok → List TokenInfo →
    Except GErr (List TokenInfo × List JTok)
  | 0, _, _, _ => .error .malformed
  | fuel + 1, sym, ts, acc =>
    if decoderMore ts then
      match parseVal ts with
      | none => .error .malformed
      | some (v, r) =>
        match decodeTokenInfo v with
        | none => .error .malformed
        | some tok =>
          gtaElemsF fuel sym r (if tok.symbol = sym then acc ++ [tok] else acc)
    else .ok (acc, ts)

/-- Top-level field loop of `getTokenAddress` (src/main.go lines 337-388):
while `More()`, read a field-name token; `official`/`unOfficial` demand an
array and stream its elements; any other string key skips exactly one
token of its value (the `default` branch, line 382); a non-string token is
read and ignored. -/
def gtaLoopF : Nat → String → List JTok → List TokenInfo →
    Except GErr (List TokenInfo × List JTok)
  | 0, _, _, _ => .error .malformed
  | fuel + 1, sym, ts, acc =>
    if decoderMore ts then
      match ts with
      | [] => .error .malformed
      | t :: rest =>
        match t with
        | .str k =>
          if k = "official" ∨ k = "unOfficial" then
            match rest with
            | .lbrack :: rest2 =>
              match gtaElemsF fuel sym rest2 acc with
              | .error e => .error e
              | .ok (acc2, r) =>
                match r with
                | .rbrack :: r2 => gtaLoopF fuel sym r2 acc2
                | _ => .error .malformed
            | _ => .error .malformed
          else
            match rest with
            | _ :: rest2 => gtaLoopF fuel sym rest2 acc
            | [] => .error .malformed
        | _ => gtaLoopF fuel sym rest acc
    else .ok (acc, ts)

/-- Model of `getTokenAddress` (src/main.go lines 302-403) on the token
stream of the token-list document: read the opening token and require
an object start, normalize the query symbol, run the field loop, require
the closing token to be an object end, and fail with `notFound` iff no
matches were collected. -/
def getTokenAddress (symbol : String) (ts : List JTok) : Except GErr (List TokenInfo) :=
  match ts with
  | [] => .error .malformed
  | t :: rest =>
    if t = JTok.lbrace then
      match gtaLoopF (2 * rest.length + 2) (goNormalize symbol) rest [] with
      | .error e => .error e
      | .ok (found, r) =>
        match r with
        | .rbrace :: _ => if found.isEmpty then .error .notFound else .ok found
        | _ => .error .malformed
    else .error .malformed

/-- The matching predicate of the `processPool` closure (src/main.go lines
214-218): an outer containment test and, nested inside it, the exact
pair test against the reference quote mint. -/
def processPoolPred (baseMint quoteMint : String) (pool : RaydiumPool) : Bool :=
  (pool.baseMint == baseMint || pool.quoteMint == baseMint) &&
    ((pool.baseMint == baseMint && pool.quoteMint == quoteMint) ||
      (pool.quoteMint == baseMint && pool.baseMint == quoteMint))

/-- Element loop of `processPoolsFile` (src/main.go lines 261-277): while
`More()`, `Decode` one `RaydiumPool` and collect it when `processPool`
matches.  Section counters and prints are observer-only and elided; both
sections run the same matching logic. -/
def ppfElemsF : Nat → String → String → List JTok → List RaydiumPool →
    Except GErr (List RaydiumPool × List JTok)
  | 0, _, _, _, _ => .error .malformed
  | fuel + 1, m, q, ts, acc =>
    if decoderMore ts then
      match parseVal ts with
      | none => .error .malformed
      | some (v, r) =>
        match decodeRaydiumPool v with
        | none => .error .malformed
        | some p =>
          ppfElemsF fuel m q r (if processPoolPred m q p then acc ++ [p] else acc)
    else .ok (acc, ts)

/-- Top-level field loop of `processPoolsFile` (src/main.go lines 238-292):
`"name"` skips one value token, `official`/`unOfficial` demand an array
and stream its elements; the switch has no default, so any other string
key is read and its value left on the stream, and a non-string token is
read and ignored. -/
def ppfLoopF : Nat → String → String → List JTok → List RaydiumPool →
    Except GErr (List RaydiumPool × List JTok)
  | 0, _, _, _, _ => .error .malformed
  | fuel + 1, m, q, ts, acc =>
    if decoderMore ts then
      match ts with
      | [] => .error .malformed
      | t :: rest =>
        match t with
        | .str k =>
          if k = "name" then
            match rest with
            | _ :: rest2 => ppfLoopF fuel m q rest2 acc
            | [] => .error .malformed
          else if k = "official" ∨ k = "unOfficial" then
            match rest with
            | .lbrack :: rest2 =>
              match ppfElemsF fuel m q rest2 acc with
              | .error e => .error e
              | .ok (acc2, r) =>
                match r with
                | .rbrack :: r2 => ppfLoopF fuel m q r2 acc2
                | _ => .error .malformed
            | _ => .error .malformed
          else ppfLoopF fuel m q rest acc
        | _ => ppfLoopF fuel m q rest acc
    else .ok (acc, ts)

/-- Model of `processPoolsFile` (src/main.go lines 191-299) on the token
stream of the pool document: the opening token is read but not validated
(line 205), the field loop runs until `More()` is false, and the collected
matches are returned with no closing-token check. -/
def processPoolsFile (baseMint : String) (ts : List JTok) : Except GErr (List RaydiumPool) :=
  match ts with
  | [] => .error .malformed
  | _ :: rest =>
    match ppfLoopF (2 * rest.length + 2) baseMint defaultQuoteMint rest [] with
    | .error e => .error e
    | .ok (acc, _) => .ok acc

/-- One field step of unmarshalling into a `TokenPoolInfo`. -/
def tokenPoolInfoStep (acc : TokenPoolInfo) (f : String × JVal) : Option TokenPoolInfo :=
  if f.1 = "token" then (decodeTokenInfoInto acc.token f.2).map fun t => { acc with token := t }
  else if f.1 = "pools" then
    match f.2 with
    | .arr es => (es.mapM decodeRaydiumPool).map fun ps => { acc with pools := ps }
    | .null => some { acc with pools := [] }
    | _ => none
  else some acc

/-- Unmarshal a JSON value as a single bare `TokenPoolInfo` (the legacy
aggregate shape, src/main.go lines 418-419). -/
def decodeTokenPoolInfo (v : JVal) : Option TokenPoolInfo :=
  match v with
  | .obj fs => fs.foldlM tokenPoolInfoStep ⟨zeroTokenInfo, []⟩
  | .null => some ⟨zeroTokenInfo, []⟩
  | _ => none

/-- Unmarshal a JSON value as the current aggregate shape
`TokenPoolInfoList` (src/main.go line 416), returning its `Tokens` slice
(nil and empty conflated).  Per `encoding/json`, unknown keys are ignored
and an absent `tokens` key leaves the zero (nil) slice. -/
def decodeTokenPoolInfoList (v : JVal) : Option (List TokenPoolInfo) :=
  match v with
  | .obj fs =>
    fs.foldlM
      (fun acc f =>
        if f.1 = "tokens" then
          match f.2 with
          | .arr es => es.mapM decodeTokenPoolInfo
          | .null => some []
          | _ => none
        else some acc)
      []
  | .null => some []
  | _ => none

/-- The upsert of `writeFilteredPools` (src/main.go lines 426-446): scan
for the first entry whose token symbol equals the new token's symbol;
replace it in place and stop, else append a new entry at the end. -/
def upsertTokens : List TokenPoolInfo → TokenInfo → List RaydiumPool → List TokenPoolInfo
  | [], t, ps => [⟨t, ps⟩]
  | e :: rest, t, ps =>
    if e.token.symbol = t.symbol then ⟨t, ps⟩ :: rest
    else e :: upsertTokens rest t ps

/-- The load-and-fallback of `writeFilteredPools` (src/main.go lines
410-424): parse the prior file as the current aggregate shape; on failure
retry as a single bare `TokenPoolInfo` promoted to a one-element
aggregate; fail only when both parses fail. -/
def loadAggregate (v : JVal) : Except GErr (List TokenPoolInfo) :=
  match decodeTokenPoolInfoList v with
  | some l => .ok l
  | none =>
    match decodeTokenPoolInfo v with
    | some e => .ok [e]
    | none => .error .malformed

/-- The pure merge computed by `writeFilteredPools` before it touches the
output file: absent prior file gives a one-entry aggregate (lines
447-453), a present prior file is loaded (with legacy fallback) and
upserted into (lines 410-446). -/
def mergeFilteredPools (prior : Option JVal) (t : TokenInfo) (ps : List RaydiumPool) :
    Except GErr (List TokenPoolInfo) :=
  match prior with
  | none => .ok [⟨t, ps⟩]
  | some v => (loadAggregate v).map fun l => upsertTokens l t ps

/-- Render a string as JSON (escaping elided: the addresses and symbols in
scope contain no characters needing escapes). -/
def renderString (s : String) : List Char :=
  '"' :: s.data ++ ['"']

/-- Render an integer as JSON. -/
def renderInt (n : Int) : List Char :=
  (toString n).data

/-- Comma-join rendered pieces. -/
def renderJoin : List (List Char) → List Char
  | [] => []
  | [x] => x
  | x :: xs => x ++ ',' :: renderJoin xs

/-- Render a `TokenInfo` in Go marshal field order. -/
def renderTokenInfo (t : TokenInfo) : List Char :=
  '{' :: renderJoin
    [ renderString "symbol" ++ ':' :: renderString t.symbol
    , renderString "name" ++ ':' :: renderString t.name
    , renderString "mint" ++ ':' :: renderString t.mint
    , renderString "decimals" ++ ':' :: renderInt t.decimals ] ++ ['}']

/-- Render a `RaydiumPool` in Go marshal field order. -/
def renderPool (p : RaydiumPool) : List Char :=
  '{' :: renderJoin
    [ renderString "id" ++ ':' :: renderString p.id
    , renderString "baseMint" ++ ':' :: renderString p.baseMint
    , renderString "quoteMint" ++ ':' :: renderString p.quoteMint
    , renderString "lpMint" ++ ':' :: renderString p.lpMint
    , renderString "programId" ++ ':' :: renderString p.programId
    , renderString "authority" ++ ':' :: renderString p.authority
    , renderString "openOrders" ++ ':' :: renderString p.openOrders
    , renderString "targetOrders" ++ ':' :: renderString p.targetOrders
    , renderString "baseVault" ++ ':' :: renderString p.baseVault
    , renderString "quoteVault" ++ ':' :: renderString p.quoteVault
    , renderString "version" ++ ':' :: renderInt p.version
    , renderString "baseDecimals" ++ ':' :: renderInt p.baseDecimals
    , renderString "quoteDecimals" ++ ':' :: renderInt p.quoteDecimals
    , renderString "lpDecimals" ++ ':' :: renderInt p.lpDecimals
    , renderString "marketVersion" ++ ':' :: renderInt p.marketVersion
    , renderString "marketProgramId" ++ ':' :: renderString p.marketProgramId
    , renderString "marketId" ++ ':' :: renderString p.marketId ] ++ ['}']

/-- Render one aggregate entry. -/
def renderTokenPoolInfo (e : TokenPoolInfo) : List Char :=
  '{' :: renderJoin
    [ renderString "token" ++ ':' :: renderTokenInfo e.token
    , renderString "pools" ++ ':' :: '[' :: renderJoin (e.pools.map renderPool) ++ [']'] ] ++ ['}']

/-- Serialize the whole aggregate, as `json.Encoder.Encode` does on
`TokenPoolInfoList` (src/main.go lines 462-465); the 2-space indentation
whitespace is elided, which affects no claim. -/
def renderAggregate (ts : List TokenPoolInfo) : List Char :=
  '{' :: renderString "tokens" ++ ':' :: '[' :: renderJoin (ts.map renderTokenPoolInfo) ++ [']', '}']

/-- Outcome of the write phase of `writeFilteredPools` (src/main.go lines
455-467): `os.Create` may fail before truncation takes effect, the
encode/write may fail after `k` bytes were flushed, or everything
succeeds. -/
inductive WriteOutcome where
  | createFail
  | failedAfter (k : Nat)
  | completed

/-- Disk content of the output file after one `writeFilteredPools` run:
a failure in load/merge happens before `os.Create`, leaving the prior
bytes; `os.Create` truncates the file in place, so a write failure after
`k` bytes leaves the first `k` bytes of the new serialization. -/
def diskAfterRun (old : List Char) (prior : Option JVal) (t : TokenInfo)
    (ps : List RaydiumPool) (o : WriteOutcome) : List Char :=
  match mergeFilteredPools prior t ps with
  | .error _ => old
  | .ok agg =>
    match o with
    | .createFail => old
    | .failedAfter k => (renderAggregate agg).take k
    | .completed => renderAggregate agg

/-- One field step of unmarshalling into the `RaydiumResponse` struct. -/
def responseStep (acc : RaydiumResponse) (f : String × JVal) : Option RaydiumResponse :=
  if f.1 = "name" then (decodeStrField f.2 acc.name).map fun s => { acc with name := s }
  else if f.1 = "official" then
    match f.2 with
    | .arr es => (es.mapM decodeRaydiumPool).map fun l => { acc with official := some l }
    | .null => some { acc with official := none }
    | _ => none
  else if f.1 = "unOfficial" then
    match f.2 with
    | .arr es => (es.mapM decodeRaydiumPool).map fun l => { acc with unofficial := some l }
    | .null => some { acc with unofficial := none }
    | _ => none
  else some acc

/-- Full decode of the pool document into `RaydiumResponse`
(`decoder.Decode(&response)`, src/main.go line 171). -/
def decodeRaydiumResponse (v : JVal) : Option RaydiumResponse :=
  match v with
  | .obj fs => fs.foldlM responseStep { name := "", official := none, unofficial := none }
  | .null => some { name := "", official := none, unofficial := none }
  | _ => none

/-- Model of `validateJSON` (src/main.go lines 159-188): fully decode the
document once, then reject an empty or missing `name`, a nil `official`
slice, and an empty `official` array. -/
def validateJSON (doc : JVal) : Except GErr Unit :=
  match decodeRaydiumResponse doc with
  | none => .error .malformed
  | some r =>
    if r.name = "" then .error .malformed
    else
      match r.official with
      | none => .error .malformed
      | some l => if l.isEmpty then .error .malformed else .ok ()

/-- The validate-then-filter sequencing of `main` (src/main.go lines
541-554): `validateJSON` runs on the downloaded document and a failure
aborts before `processPoolsFile` is ever invoked.  `doc` is the parsed
document and `ts` its token stream (the file is read twice). -/
def runPipeline (doc : JVal) (ts : List JTok) (baseMint : String) :
    Except GErr (List RaydiumPool) :=
  match validateJSON doc with
  | .error e => .error e
  | .ok _ => processPoolsFile baseMint ts

/-- A flat JSON object description: a list of keys with scalar-token
values.  The token and pool records of the documents in scope are flat
objects. -/
def flatToks (fs : List (String × JTok)) : List JTok :=
  .lbrace :: fs.foldr (fun f acc => .str f.1 :: f.2 :: acc) [.rbrace]

/-- The inner token run of a flat object (between its braces). -/
def flatInner (fs : List (String × JTok)) : List JTok :=
  fs.foldr (fun f acc => .str f.1 :: f.2 :: acc) []

/-- The JSON value a flat object parses to. -/
def flatVal (fs : List (String × JTok)) : JVal :=
  .obj (fs.map fun f => (f.1, f.2.toVal))

/-- All value tokens of a flat object are scalars. -/
def FlatOk (fs : List (String × JTok)) : Prop :=
  ∀ f ∈ fs, f.2.isScalar = true

/-- Token run of an array of flat objects (between its brackets). -/
def arrToks (es : List (List (String × JTok))) : List JTok :=
  es.foldr (fun e acc => flatToks e ++ acc) []

/-- A well-formed token-list array element: a flat object that unmarshals
into a `TokenInfo`. -/
def TokElemOk (e : List (String × JTok)) : Prop :=
  FlatOk e ∧ (decodeTokenInfo (flatVal e)).isSome = true

/-- A well-formed pool array element: a flat object that unmarshals into a
`RaydiumPool`. -/
def PoolElemOk (e : List (String × JTok)) : Prop :=
  FlatOk e ∧ (decodeRaydiumPool (flatVal e)).isSome = true

/-- The records one token-list array contributes for a normalized query:
each decodable element whose symbol equals the query, in encounter
order. -/
def gtaMatches (sym : String) (es : List (List (String × JTok))) : List TokenInfo :=
  es.filterMap fun e =>
    (decodeTokenInfo (flatVal e)).bind fun t => if t.symbol = sym then some t else none

/-- The pools one pool array contributes: each decodable element passing
the `processPool` predicate, in encounter order. -/
def ppfMatches (m q : String) (es : List (List (String × JTok))) : List RaydiumPool :=
  es.filterMap fun e =>
    (decodeRaydiumPool (flatVal e)).bind fun p => if processPoolPred m q p then some p else none

/-- The pool records an array of flat objects decodes to. -/
def decodedPools (es : List (List (String × JTok))) : List RaydiumPool :=
  es.filterMap fun e => decodeRaydiumPool (flatVal e)

/-- Top-level field of a token-list document, as `getTokenAddress` sees
it: either a section (`official`/`unOfficial`) holding an array of flat
records, or some other field with a scalar value. -/
inductive GField where
  | scalarF (k : String) (t : JTok)
  | sectionF (k : String) (es : List (List (String × JTok)))

/-- Token run of one token-document field. -/
def GField.toks : GField → List JTok
  | .scalarF k t => [.str k, t]
  | .sectionF k es => .str k :: .lbrack :: arrToks es ++ [.rbrack]

/-- Token run of a token-document field list. -/
def gFieldsToks (fs : List GField) : List JTok :=
  fs.foldr (fun f acc => f.toks ++ acc) []

/-- Well-formedness of one token-document field: sections are the two
known array fields with decodable elements; every other field has a
scalar value. -/
def GField.Ok : GField → Prop
  | .scalarF k t => k ≠ "official" ∧ k ≠ "unOfficial" ∧ t.isScalar = true
  | .sectionF k es => (k = "official" ∨ k = "unOfficial") ∧ ∀ e ∈ es, TokElemOk e

/-- The match set a token-document field list denotes (sections contribute
their matches in order, other fields nothing). -/
def gtaSpec (sym : String) : List GField → List TokenInfo
  | [] => []
  | .scalarF _ _ :: fs => gtaSpec sym fs
  | .sectionF _ es :: fs => gtaMatches sym es ++ gtaSpec sym fs

/-- Whether a token-document field is one of the two section fields. -/
def GField.isSection : GField → Bool
  | .sectionF _ _ => true
  | _ => false

/-- Top-level field of a pool document, as `processPoolsFile` sees it:
the `name` field, a section, or some other extra field. -/
inductive PField where
  | nameF (t : JTok)
  | sectionF (k : String) (es : List (List (String × JTok)))
  | extraF (k : String) (t : JTok)

/-- Token run of one pool-document field. -/
def PField.toks : PField → List JTok
  | .nameF t => [.str "name", t]
  | .sectionF k es => .str k :: .lbrack :: arrToks es ++ [.rbrack]
  | .extraF k t => [.str k, t]

/-- Token run of a pool-document field list. -/
def pFieldsToks (fs : List PField) : List JTok :=
  fs.foldr (fun f acc => f.toks ++ acc) []

/-- Whether a token is not a string spelling one of the three case labels
of the `processPoolsFile` switch. -/
def notCaseLabel : JTok → Bool
  | .str s => !(s == "name" || s == "official" || s == "unOfficial")
  | _ => true

/-- Well-formedness of one pool-document field.  Extra fields are benign
for the defaultless switch of `processPoolsFile` only when their value is
a scalar that is not itself one of the three case strings (a string value
equal to a case label would be mistaken for a field name on the next
iteration). -/
def PField.Ok : PField → Prop
  | .nameF t => t.isScalar = true
  | .sectionF k es => (k = "official" ∨ k = "unOfficial") ∧ ∀ e ∈ es, PoolElemOk e
  | .extraF k t => k ≠ "name" ∧ k ≠ "official" ∧ k ≠ "unOfficial" ∧ t.isScalar = true ∧
      notCaseLabel t = true

/-- The filtered pool list a pool-document field list denotes. -/
def ppfSpec (m q : String) : List PField → List RaydiumPool
  | [] => []
  | .nameF _ :: fs => ppfSpec m q fs
  | .extraF _ _ :: fs => ppfSpec m q fs
  | .sectionF _ es :: fs => ppfMatches m q es ++ ppfSpec m q fs

/-- Whether a pool-document field is kept by the known-field switch
(`name` or a section). -/
def PField.isKnown : PField → Bool
  | .extraF _ _ => false
  | _ => true

instance (fs : List (String × JTok)) : Decidable (FlatOk fs) := by
  unfold FlatOk
  infer_instance

instance (e : List (String × JTok)) : Decidable (TokElemOk e) := by
  unfold TokElemOk
  infer_instance

instance (e : List (String × JTok)) : Decidable (PoolElemOk e) := by
  unfold PoolElemOk
  infer_instance

instance (f : GField) : Decidable f.Ok := by
  cases f <;> unfold GField.Ok <;> infer_instance

instance (f : PField) : Decidable f.Ok := by
  cases f <;> unfold PField.Ok <;> infer_instance

/-- Unfolding of a flat-object token run. -/
theorem flatToks_eq (fs : List (String × JTok)) :
    flatToks fs = .lbrace :: flatInner fs ++ [.rbrace] := by
  have h : ∀ gs : List (String × JTok),
      gs.foldr (fun f acc => JTok.str f.1 :: f.2 :: acc) [.rbrace]
        = gs.foldr (fun f acc => JTok.str f.1 :: f.2 :: acc) [] ++ [.rbrace] := by
    intro gs
    induction gs with
    | nil => rfl
    | cons g gs ih => simp [ih]
  unfold flatToks flatInner
  rw [h]
  simp

/-- Parsing a scalar token yields its value and consumes one token. -/
theorem parseF_scalar (n : Nat) (t : JTok) (rest : List JTok) (h : t.isScalar = true) :
    parseF (n + 1) .val (t :: rest) = some (.v t.toVal, rest) := by
  cases t <;> simp_all [parseF, JTok.toVal, JTok.isScalar]

/-- Parsing the object tail of a flat object consumes it whole and yields
its fields. -/
theorem parseF_objTail_flat (fs : List (String × JTok)) :
    ∀ (fuel : Nat) (rest : List JTok), FlatOk fs →
      (flatInner fs ++ .rbrace :: rest).length < fuel →
      parseF fuel .objTail (flatInner fs ++ .rbrace :: rest)
        = some (.fs (fs.map fun f => (f.1, f.2.toVal)), rest) := by
  induction fs with
  | nil =>
    intro fuel rest _ hlen
    match fuel, hlen with
    | n + 1, _ => simp [flatInner, parseF]
  | cons f fs ih =>
    intro fuel rest hok hlen
    have hsc : f.2.isScalar = true := hok f (List.mem_cons_self f fs)
    have hok' : FlatOk fs := fun g hg => hok g (List.mem_cons_of_mem f hg)
    have hinner : flatInner (f :: fs) = .str f.1 :: f.2 :: flatInner fs := rfl
    rw [hinner] at hlen ⊢
    match fuel, hlen with
    | n + 1, hlen =>
      have hn : n ≥ 1 := by simp at hlen; omega
      match n, hn with
      | m + 1, _ =>
        have h2 : parseF (m + 1) .objTail (flatInner fs ++ .rbrace :: rest)
            = some (.fs (fs.map fun f => (f.1, f.2.toVal)), rest) := by
          apply ih (m + 1) rest hok'
          simp at hlen ⊢
          omega
        rcases f with ⟨k, t⟩
        cases t <;> simp_all [parseF, JTok.isScalar, JTok.toVal]

/-- `Decoder.Decode` on a well-formed flat object reads exactly that
object. -/
theorem parseVal_flat (fs : List (String × JTok)) (rest : List JTok) (hok : FlatOk fs) :
    parseVal (flatToks fs ++ rest) = some (flatVal fs, rest) := by
  have key : ∀ fuel, (flatToks fs ++ rest).length + 1 ≤ fuel →
      parseF fuel .val (flatToks fs ++ rest) = some (.v (flatVal fs), rest) := by
    intro fuel hf
    rw [flatToks_eq] at hf ⊢
    match fuel, hf with
    | n + 1, hf =>
      have h := parseF_objTail_flat fs n rest hok (by simp at hf ⊢; omega)
      simp only [List.cons_append, List.append_assoc, List.singleton_append] at h ⊢
      simp [parseF, h, flatVal]
  unfold parseVal
  rw [key (2 * (flatToks fs ++ rest).length + 2) (by omega)]

/-- The element loop of `getTokenAddress` on a well-formed array consumes
every element, collecting exactly the symbol matches in encounter
order, and stops at the closing bracket. -/
theorem gtaElemsF_arr (sym : String) (es : List (List (String × JTok))) :
    ∀ (fuel : Nat) (acc : List TokenInfo) (rest : List JTok),
      (∀ e ∈ es, TokElemOk e) →
      (arrToks es ++ .rbrack :: rest).length < fuel →
      gtaElemsF fuel sym (arrToks es ++ .rbrack :: rest) acc
        = .ok (acc ++ gtaMatches sym es, .rbrack :: rest) := by
  induction es with
  | nil =>
    intro fuel acc rest _ hlen
    match fuel, hlen with
    | n + 1, _ => simp [arrToks, gtaElemsF, decoderMore, gtaMatches]
  | cons e es ih =>
    intro fuel acc rest hok hlen
    have hfst : TokElemOk e := hok e (List.mem_cons_self e es)
    obtain ⟨tok, htok⟩ := Option.isSome_iff_exists.mp hfst.2
    have harr : arrToks (e :: es) = flatToks e ++ arrToks es := rfl
    rw [harr] at hlen ⊢
    match fuel, hlen with
    | n + 1, hlen =>
      have hmore : decoderMore (flatToks e ++ (arrToks es ++ .rbrack :: rest)) = true := by
        rw [flatToks_eq]; rfl
      have hpv : parseVal (flatToks e ++ (arrToks es ++ .rbrack :: rest))
          = some (flatVal e, arrToks es ++ .rbrack :: rest) := parseVal_flat e _ hfst.1
      have hih := ih n (if tok.symbol = sym then acc ++ [tok] else acc) rest
        (fun x hx => hok x (List.mem_cons_of_mem e hx))
        (by rw [flatToks_eq] at hlen; simp at hlen ⊢; omega)
      simp only [List.append_assoc] at hmore hpv ⊢
      simp only [gtaElemsF, hmore, if_true, hpv, htok]
      rw [hih]
      have hm : gtaMatches sym (e :: es)
          = (if tok.symbol = sym then [tok] else []) ++ gtaMatches sym es := by
        simp [gtaMatches, List.filterMap_cons, htok]
        by_cases hts : tok.symbol = sym <;> simp [hts]
      rw [hm]
      by_cases hts : tok.symbol = sym <;> simp [hts]

/-- The element loop of `processPoolsFile` on a well-formed array consumes
every element, collecting exactly the pools passing `processPool`, in
encounter order. -/
theorem ppfElemsF_arr (m q : String) (es : List (List (String × JTok))) :
    ∀ (fuel : Nat) (acc : List RaydiumPool) (rest : List JTok),
      (∀ e ∈ es, PoolElemOk e) →
      (arrToks es ++ .rbrack :: rest).length < fuel →
      ppfElemsF fuel m q (arrToks es ++ .rbrack :: rest) acc
        = .ok (acc ++ ppfMatches m q es, .rbrack :: rest) := by
  induction es with
  | nil =>
    intro fuel acc rest _ hlen
    match fuel, hlen with
    | n + 1, _ => simp [arrToks, ppfElemsF, decoderMore, ppfMatches]
  | cons e es ih =>
    intro fuel acc rest hok hlen
    have hfst : PoolElemOk e := hok e (List.mem_cons_self e es)
    obtain ⟨p, hp⟩ := Option.isSome_iff_exists.mp hfst.2
    have harr : arrToks (e :: es) = flatToks e ++ arrToks es := rfl
    rw [harr] at hlen ⊢
    match fuel, hlen with
    | n + 1, hlen =>
      have hmore : decoderMore (flatToks e ++ (arrToks es ++ .rbrack :: rest)) = true := by
        rw [flatToks_eq]; rfl
      have hpv : parseVal (flatToks e ++ (arrToks es ++ .rbrack :: rest))
          = some (flatVal e, arrToks es ++ .rbrack :: rest) := parseVal_flat e _ hfst.1
      have hih := ih n (if processPoolPred m q p then acc ++ [p] else acc) rest
        (fun x hx => hok x (List.mem_cons_of_mem e hx))
        (by rw [flatToks_eq] at hlen; simp at hlen ⊢; omega)
      simp only [List.append_assoc] at hmore hpv ⊢
      simp only [ppfElemsF, hmore, if_true, hpv, hp]
      rw [hih]
      have hm : ppfMatches m q (e :: es)
          = (if processPoolPred m q p then [p] else []) ++ ppfMatches m q es := by
        simp [ppfMatches, List.filterMap_cons, hp]
        by_cases hts : processPoolPred m q p <;> simp [hts]
      rw [hm]
      by_cases hts : processPoolPred m q p <;> simp [hts]

/-- The field loop of `getTokenAddress` on a list of well-formed fields
collects exactly the section matches, in document order, and stops at the
closing brace. -/
theorem gtaLoopF_fields (sym : String) (fs : List GField) :
    ∀ (fuel : Nat) (acc : List TokenInfo) (rest : List JTok),
      (∀ f ∈ fs, f.Ok) →
      (gFieldsToks fs ++ .rbrace :: rest).length < fuel →
      gtaLoopF fuel sym (gFieldsToks fs ++ .rbrace :: rest) acc
        = .ok (acc ++ gtaSpec sym fs, .rbrace :: rest) := by
  induction fs with
  | nil =>
    intro fuel acc rest _ hlen
    match fuel, hlen with
    | n + 1, _ => simp [gFieldsToks, gtaLoopF, decoderMore, gtaSpec]
  | cons f fs ih =>
    intro fuel acc rest hok hlen
    have hfst : f.Ok := hok f (List.mem_cons_self f fs)
    have hrest : ∀ g ∈ fs, g.Ok := fun g hg => hok g (List.mem_cons_of_mem f hg)
    have hcons : gFieldsToks (f :: fs) = f.toks ++ gFieldsToks fs := rfl
    rw [hcons] at hlen ⊢
    cases f with
    | scalarF k t =>
      obtain ⟨hk1, hk2, _⟩ := hfst
      match fuel, hlen with
      | n + 1, hlen =>
        have hih := ih n acc rest hrest (by simp [GField.toks] at hlen ⊢; omega)
        simp only [GField.toks, List.cons_append, List.append_assoc] at hlen ⊢
        simp [gtaLoopF, decoderMore, hk1, hk2, hih, gtaSpec]
    | sectionF k es =>
      obtain ⟨hk, hes⟩ := hfst
      match fuel, hlen with
      | n + 1, hlen =>
        have helems := gtaElemsF_arr sym es n acc (gFieldsToks fs ++ .rbrace :: rest) hes
          (by simp [GField.toks] at hlen ⊢; omega)
        have hih := ih n (acc ++ gtaMatches sym es) rest hrest
          (by simp [GField.toks] at hlen ⊢; omega)
        simp only [GField.toks, List.cons_append, List.append_assoc, List.singleton_append,
          List.nil_append] at hlen ⊢
        simp only [gtaLoopF, decoderMore, if_pos hk, if_true, List.nil_append]
        simp only [List.append_assoc, List.nil_append] at helems
        rw [helems]
        simp [hih, gtaSpec]

/-- The field loop of `processPoolsFile` on a list of well-formed fields
collects exactly the section matches, in document order, and stops at the
closing brace. -/
theorem ppfLoopF_fields (m q : String) (fs : List PField) :
    ∀ (fuel : Nat) (acc : List RaydiumPool) (rest : List JTok),
      (∀ f ∈ fs, f.Ok) →
      (pFieldsToks fs ++ .rbrace :: rest).length < fuel →
      ppfLoopF fuel m q (pFieldsToks fs ++ .rbrace :: rest) acc
        = .ok (acc ++ ppfSpec m q fs, .rbrace :: rest) := by
  induction fs with
  | nil =>
    intro fuel acc rest _ hlen
    match fuel, hlen with
    | n + 1, _ => simp [pFieldsToks, ppfLoopF, decoderMore, ppfSpec]
  | cons f fs ih =>
    intro fuel acc rest hok hlen
    have hfst : f.Ok := hok f (List.mem_cons_self f fs)
    have hrest : ∀ g ∈ fs, g.Ok := fun g hg => hok g (List.mem_cons_of_mem f hg)
    have hcons : pFieldsToks (f :: fs) = f.toks ++ pFieldsToks fs := rfl
    rw [hcons] at hlen ⊢
    cases f with
    | nameF t =>
      match fuel, hlen with
      | n + 1, hlen =>
        have hih := ih n acc rest hrest (by simp [PField.toks] at hlen ⊢; omega)
        simp only [PField.toks, List.cons_append, List.append_assoc] at hlen ⊢
        simp [ppfLoopF, decoderMore, hih, ppfSpec]
    | sectionF k es =>
      obtain ⟨hk, hes⟩ := hfst
      have hkname : k ≠ "name" := by rcases hk with h | h <;> simp [h]
      match fuel, hlen with
      | n + 1, hlen =>
        have helems := ppfElemsF_arr m q es n acc (pFieldsToks fs ++ .rbrace :: rest) hes
          (by simp [PField.toks] at hlen ⊢; omega)
        have hih := ih n (acc ++ ppfMatches m q es) rest hrest
          (by simp [PField.toks] at hlen ⊢; omega)
        simp only [PField.toks, List.cons_append, List.append_assoc, List.singleton_append,
          List.nil_append] at hlen ⊢
        simp only [ppfLoopF, decoderMore, if_neg hkname, if_pos hk, if_true, List.nil_append]
        simp only [List.append_assoc, List.nil_append] at helems
        rw [helems]
        simp [hih, ppfSpec]
    | extraF k t =>
      obtain ⟨hk1, hk2, hk3, hsc, hstr⟩ := hfst
      match fuel, hlen with
      | n + 1, hlen =>
        have hn : n ≥ 1 := by simp [PField.toks] at hlen; omega
        match n, hn with
        | nn + 1, _ =>
          have hih := ih nn acc rest hrest (by simp [PField.toks] at hlen ⊢; omega)
          simp only [PField.toks, List.cons_append, List.append_assoc] at hlen ⊢
          -- first iteration reads the key and takes the defaultless-switch path,
          -- second iteration reads the scalar value token and ignores it
          cases t with
          | str s =>
            simp only [notCaseLabel, Bool.not_eq_true', Bool.or_eq_false_iff,
              beq_eq_false_iff_ne, ne_eq] at hstr
            obtain ⟨⟨hs1, hs2⟩, hs3⟩ := hstr
            simp [ppfLoopF, decoderMore, hk1, hk2, hk3, hs1, hs2, hs3, hih, ppfSpec]
          | num nv => simp [ppfLoopF, decoderMore, hk1, hk2, hk3, hih, ppfSpec]
          | boolv b => simp [ppfLoopF, decoderMore, hk1, hk2, hk3, hih, ppfSpec]
          | null => simp [ppfLoopF, decoderMore, hk1, hk2, hk3, hih, ppfSpec]
          | lbrace => simp [JTok.isScalar] at hsc
          | rbrace => simp [JTok.isScalar] at hsc
          | lbrack => simp [JTok.isScalar] at hsc
          | rbrack => simp [JTok.isScalar] at hsc

/-- `getTokenAddress` on a document made of well-formed fields returns all
section matches in document order, or `notFound` when there are none. -/
theorem getTokenAddress_doc (sym : String) (fs : List GField) (hok : ∀ f ∈ fs, f.Ok) :
    getTokenAddress sym (.lbrace :: gFieldsToks fs ++ [.rbrace])
      = if (gtaSpec (goNormalize sym) fs).isEmpty then .error .notFound
        else .ok (gtaSpec (goNormalize sym) fs) := by
  unfold getTokenAddress
  have hloop := gtaLoopF_fields (goNormalize sym) fs
    (2 * ((gFieldsToks fs).length + 1) + 2) [] []
    hok (by simp; omega)
  simp only [List.append_nil] at hloop
  simp only [List.cons_append, List.length_append, List.length_cons, List.length_nil,
    List.nil_append] at hloop ⊢
  simp [hloop]

/-- `processPoolsFile` on a document made of well-formed fields returns
exactly the pools of its sections passing the predicate, in document
order. -/
theorem processPoolsFile_doc (m : String) (fs : List PField) (hok : ∀ f ∈ fs, f.Ok) :
    processPoolsFile m (.lbrace :: pFieldsToks fs ++ [.rbrace])
      = .ok (ppfSpec m defaultQuoteMint fs) := by
  unfold processPoolsFile
  have hloop := ppfLoopF_fields m defaultQuoteMint fs
    (2 * ((pFieldsToks fs).length + 1) + 2) [] []
    hok (by simp; omega)
  simp only [List.append_nil] at hloop
  simp only [List.cons_append, List.length_append, List.length_cons, List.length_nil,
    List.nil_append] at hloop ⊢
  simp [hloop]

/-- Dropping the non-section fields does not change the match set a
token document denotes. -/
theorem gtaSpec_filter (sym : String) (fs : List GField) :
    gtaSpec sym (fs.filter GField.isSection) = gtaSpec sym fs := by
  induction fs with
  | nil => rfl
  | cons f fs ih => cases f <;> simp [GField.isSection, gtaSpec, List.filter_cons, ih]

/-- Dropping the extra fields does not change the pool list a pool
document denotes. -/
theorem ppfSpec_filter (m q : String) (fs : List PField) :
    ppfSpec m q (fs.filter PField.isKnown) = ppfSpec m q fs := by
  induction fs with
  | nil => rfl
  | cons f fs ih => cases f <;> simp [PField.isKnown, ppfSpec, List.filter_cons, ih]

/-- No character in the ASCII lowercase range uppercases to a dollar
sign. -/
theorem ofNat_sub_ne_dollar : ∀ n < 123, 97 ≤ n → Char.ofNat (n - 32) ≠ '$' := by decide

/-- Only the dollar sign uppercases to a dollar sign. -/
theorem goUpperChar_eq_dollar (c : Char) (h : goUpperChar c = '$') : c = '$' := by
  unfold goUpperChar at h
  split at h
  · next hr => exact absurd h (ofNat_sub_ne_dollar c.toNat (by omega) hr.1)
  · exact h

/-- Uppercasing fixes the dollar sign. -/
theorem goUpperChar_dollar : goUpperChar '$' = '$' := by decide

/-- Trimming a leading dollar off a string that starts with another
character is the identity. -/
theorem goTrimDollar_cons_ne (x : Char) (xs : List Char) (hx : x ≠ '$') :
    goTrimDollar ⟨x :: xs⟩ = ⟨x :: xs⟩ := by
  unfold goTrimDollar
  split
  · next heq =>
    injection heq with h1 _
    exact absurd h1 hx
  · rfl

/-- Queries that agree after uppercasing also agree after the full
normalization (uppercase does not create or destroy a leading dollar). -/
theorem goNormalize_eq_of_upper (a b : String) (h : goToUpper a = goToUpper b) :
    goNormalize a = goNormalize b := by
  cases a with
  | mk la =>
    cases b with
    | mk lb =>
      have hd : la.map goUpperChar = lb.map goUpperChar := congrArg String.data h
      unfold goNormalize
      cases la with
      | nil =>
        cases lb with
        | nil => rfl
        | cons y ys => simp at hd
      | cons x xs =>
        cases lb with
        | nil => simp at hd
        | cons y ys =>
          simp only [List.map_cons, List.cons.injEq] at hd
          obtain ⟨hxy, hxs⟩ := hd
          by_cases hx : x = '$'
          · have hy : y = '$' := by
              apply goUpperChar_eq_dollar
              rw [← hxy, hx, goUpperChar_dollar]
            subst hx
            subst hy
            show goToUpper ⟨xs⟩ = goToUpper ⟨ys⟩
            unfold goToUpper
            exact congrArg String.mk hxs
          · have hy : y ≠ '$' := by
              intro hy
              exact hx (goUpperChar_eq_dollar x (by rw [hxy, hy, goUpperChar_dollar]))
            rw [goTrimDollar_cons_ne x xs hx, goTrimDollar_cons_ne y ys hy]
            unfold goToUpper
            exact congrArg String.mk (by simp [hxy, hxs])

/-- Prepending a dollar to a dollar-free query does not change the
normalized symbol. -/
theorem goNormalize_dollar_cons (s : String) (hs : s.data.head? ≠ some '$') :
    goNormalize ⟨'$' :: s.data⟩ = goNormalize s := by
  unfold goNormalize
  have h1 : goTrimDollar ⟨'$' :: s.data⟩ = ⟨s.data⟩ := rfl
  have h2 : goTrimDollar s = s := by
    cases hsd : s.data with
    | nil =>
      cases s with
      | mk l => cases l with
        | nil => rfl
        | cons c cs => simp at hsd
    | cons c cs =>
      have hc : c ≠ '$' := by
        intro hc
        rw [hsd, hc] at hs
        simp at hs
      cases s with
      | mk l =>
        simp only at hsd
        rw [hsd]
        exact goTrimDollar_cons_ne c cs hc
  rw [h1, h2]

/-- The nested condition of `processPool` is equivalent to the exact pair
predicate: the outer containment test is redundant. -/
theorem processPoolPred_iff (m q : String) (p : RaydiumPool) :
    processPoolPred m q p = true ↔
      ((p.baseMint = m ∧ p.quoteMint = q) ∨ (p.quoteMint = m ∧ p.baseMint = q)) := by
  unfold processPoolPred
  simp only [Bool.and_eq_true, Bool.or_eq_true, beq_iff_eq]
  constructor
  · rintro ⟨-, h⟩
    tauto
  · rintro (⟨h1, h2⟩ | ⟨h1, h2⟩) <;> simp [h1, h2]

/-- The matches of one pool array are the decoded pools filtered by the
`processPool` predicate. -/
theorem ppfMatches_eq_filter (m q : String) (es : List (List (String × JTok))) :
    ppfMatches m q es = (decodedPools es).filter (processPoolPred m q) := by
  induction es with
  | nil => rfl
  | cons e es ih =>
    unfold ppfMatches decodedPools at ih ⊢
    cases hdec : decodeRaydiumPool (flatVal e) with
    | none => simp [List.filterMap_cons, hdec, ih]
    | some p =>
      by_cases hp : processPoolPred m q p <;>
        simp [List.filterMap_cons, hdec, hp, ih]

/-- Members of an upserted aggregate come from the old aggregate or are
the new entry. -/
theorem mem_upsertTokens (ts : List TokenPoolInfo) (t : TokenInfo) (ps : List RaydiumPool)
    (x : TokenPoolInfo) (hx : x ∈ upsertTokens ts t ps) : x ∈ ts ∨ x = ⟨t, ps⟩ := by
  induction ts with
  | nil => simp [upsertTokens] at hx; tauto
  | cons e rest ih =>
    unfold upsertTokens at hx
    by_cases he : e.token.symbol = t.symbol
    · rw [if_pos he] at hx
      rcases List.mem_cons.mp hx with h | h
      · right; exact h
      · left; exact List.mem_cons_of_mem e h
    · rw [if_neg he] at hx
      rcases List.mem_cons.mp hx with h | h
      · left; rw [h]; exact List.mem_cons_self e rest
      · rcases ih h with h2 | h2
        · left; exact List.mem_cons_of_mem e h2
        · right; exact h2

/-- C1: for every pool record in the source stream, the filter includes
the record in its result iff (baseMint equals the queried mint and
quoteMint equals the fixed reference quote mint) or (quoteMint equals the
queried mint and baseMint equals the reference); a record containing the
queried mint with any other paired mint is excluded.  Stated on the
canonical pool document (a name field and the two sections); the nested
`processPool` condition reduces to exactly this pair predicate. -/
theorem claim_C1 (m : String) (nmTok : JTok) (os us : List (List (String × JTok)))
    (hnm : nmTok.isScalar = true)
    (hos : ∀ e ∈ os, PoolElemOk e) (hus : ∀ e ∈ us, PoolElemOk e) :
    processPoolsFile m
        (.lbrace :: pFieldsToks
          [.nameF nmTok, .sectionF "official" os, .sectionF "unOfficial" us] ++ [.rbrace])
      = .ok ((decodedPools os ++ decodedPools us).filter
          (processPoolPred m defaultQuoteMint))
    ∧ ∀ p : RaydiumPool,
        p ∈ (decodedPools os ++ decodedPools us).filter (processPoolPred m defaultQuoteMint)
          ↔ p ∈ decodedPools os ++ decodedPools us ∧
            ((p.baseMint = m ∧ p.quoteMint = defaultQuoteMint) ∨
              (p.quoteMint = m ∧ p.baseMint = defaultQuoteMint)) := by
  constructor
  · have hfields : ∀ f ∈ [PField.nameF nmTok, PField.sectionF "official" os,
        PField.sectionF "unOfficial" us], f.Ok := by
      intro f hf
      simp only [List.mem_cons, List.not_mem_nil, or_false] at hf
      rcases hf with rfl | rfl | rfl
      · exact hnm
      · exact ⟨Or.inl rfl, hos⟩
      · exact ⟨Or.inr rfl, hus⟩
    rw [processPoolsFile_doc m _ hfields]
    simp [ppfSpec, ppfMatches_eq_filter, List.filter_append]
  · intro p
    rw [List.mem_filter, processPoolPred_iff]

/-- C1 witness: a concrete one-pool document evaluated through the
theorem. -/
theorem claim_C1_witness :
    (JTok.str "mainnet").isScalar = true
    ∧ (∀ e ∈ [[("id", JTok.str "p1"), ("baseMint", JTok.str "X"),
        ("quoteMint", JTok.str "So11111111111111111111111111111111111111112")]], PoolElemOk e)
    ∧ (∀ e ∈ ([] : List (List (String × JTok))), PoolElemOk e)
    ∧ (processPoolsFile "X"
        (.lbrace :: pFieldsToks
          [.nameF (JTok.str "mainnet"),
           .sectionF "official" [[("id", JTok.str "p1"), ("baseMint", JTok.str "X"),
             ("quoteMint", JTok.str "So11111111111111111111111111111111111111112")]],
           .sectionF "unOfficial" []] ++ [.rbrace])
      = .ok ((decodedPools [[("id", JTok.str "p1"), ("baseMint", JTok.str "X"),
             ("quoteMint", JTok.str "So11111111111111111111111111111111111111112")]]
           ++ decodedPools []).filter
          (processPoolPred "X" defaultQuoteMint))
    ∧ ∀ p : RaydiumPool,
        p ∈ (decodedPools [[("id", JTok.str "p1"), ("baseMint", JTok.str "X"),
             ("quoteMint", JTok.str "So11111111111111111111111111111111111111112")]]
           ++ decodedPools []).filter (processPoolPred "X" defaultQuoteMint)
          ↔ p ∈ decodedPools [[("id", JTok.str "p1"), ("baseMint", JTok.str "X"),
             ("quoteMint", JTok.str "So11111111111111111111111111111111111111112")]]
             ++ decodedPools [] ∧
            ((p.baseMint = "X" ∧ p.quoteMint = defaultQuoteMint) ∨
              (p.quoteMint = "X" ∧ p.baseMint = defaultQuoteMint))) :=
  ⟨by decide, by decide, by decide,
    claim_C1 "X" (JTok.str "mainnet") _ _ (by decide) (by decide) (by decide)⟩

/-- C2: the merge scans the aggregate for the first entry whose token
symbol equals the new token's symbol (exact, case-sensitive); if found it
replaces that entry wholesale at its original position, otherwise it
appends a new entry at the end, with all other entries and their order
unchanged; and merging the same pair twice into an initially empty
aggregate yields a one-entry aggregate after each merge. -/
theorem claim_C2 : ∀ (ts : List TokenPoolInfo) (t : TokenInfo) (ps : List RaydiumPool),
    ((∃ pre e post, ts = pre ++ e :: post ∧ (∀ x ∈ pre, x.token.symbol ≠ t.symbol) ∧
        e.token.symbol = t.symbol ∧ upsertTokens ts t ps = pre ++ ⟨t, ps⟩ :: post)
      ∨ ((∀ x ∈ ts, x.token.symbol ≠ t.symbol) ∧ upsertTokens ts t ps = ts ++ [⟨t, ps⟩]))
    ∧ upsertTokens [] t ps = [⟨t, ps⟩]
    ∧ upsertTokens (upsertTokens [] t ps) t ps = [⟨t, ps⟩] := by
  intro ts t ps
  refine ⟨?_, rfl, by simp [upsertTokens]⟩
  induction ts with
  | nil => right; exact ⟨by simp, rfl⟩
  | cons e rest ih =>
    by_cases he : e.token.symbol = t.symbol
    · left
      exact ⟨[], e, rest, rfl, by simp, he, by simp [upsertTokens, he]⟩
    · rcases ih with ⟨pre, x, post, heq, hpre, hx, hres⟩ | ⟨hall, hres⟩
      · left
        refine ⟨e :: pre, x, post, by simp [heq], ?_, hx, ?_⟩
        · intro y hy
          rcases List.mem_cons.mp hy with rfl | hy2
          · exact he
          · exact hpre y hy2
        · simp [upsertTokens, he, hres]
      · right
        refine ⟨?_, by simp [upsertTokens, he, hres]⟩
        intro y hy
        rcases List.mem_cons.mp hy with rfl | hy2
        · exact he
        · exact hall y hy2

/-- C9: the merge preserves the invariant that no two aggregate entries
share a token symbol. -/
theorem claim_C9 (ts : List TokenPoolInfo) (t : TokenInfo) (ps : List RaydiumPool)
    (h : ts.Pairwise fun a b => a.token.symbol ≠ b.token.symbol) :
    (upsertTokens ts t ps).Pairwise fun a b => a.token.symbol ≠ b.token.symbol := by
  induction ts with
  | nil => simp [upsertTokens]
  | cons e rest ih =>
    rcases List.pairwise_cons.mp h with ⟨he, hrest⟩
    by_cases hsym : e.token.symbol = t.symbol
    · simp only [upsertTokens, if_pos hsym]
      refine List.pairwise_cons.mpr ⟨?_, hrest⟩
      intro b hb
      have hb2 := he b hb
      rwa [hsym] at hb2
    · simp only [upsertTokens, if_neg hsym]
      refine List.pairwise_cons.mpr ⟨?_, ih hrest⟩
      intro b hb
      rcases mem_upsertTokens rest t ps b hb with h2 | h2
      · exact he b h2
      · rw [h2]
        exact hsym

/-- C9 witness: a concrete two-entry aggregate with distinct symbols,
upserted with a third symbol, evaluated through the theorem. -/
theorem claim_C9_witness :
    ([⟨⟨"AAA", "", "", 0⟩, []⟩, ⟨⟨"BBB", "", "", 0⟩, []⟩] : List TokenPoolInfo).Pairwise
      (fun a b => a.token.symbol ≠ b.token.symbol)
    ∧ (upsertTokens [⟨⟨"AAA", "", "", 0⟩, []⟩, ⟨⟨"BBB", "", "", 0⟩, []⟩]
        ⟨"CCC", "", "", 0⟩ []).Pairwise (fun a b => a.token.symbol ≠ b.token.symbol) :=
  ⟨by decide, claim_C9 _ _ _ (by decide)⟩

/-- C5: on a well-formed token document, resolution returns all records
from both arrays whose symbol matches the normalized query — duplicates
included, official section first, in encounter order — and it fails with
notFound iff that sequence is empty; the emptiness test runs only after
the loop has traversed both arrays to their closing delimiters. -/
theorem claim_C5 (sym : String) (os us : List (List (String × JTok)))
    (hos : ∀ e ∈ os, TokElemOk e) (hus : ∀ e ∈ us, TokElemOk e) :
    getTokenAddress sym
        (.lbrace :: gFieldsToks [.sectionF "official" os, .sectionF "unOfficial" us]
          ++ [.rbrace])
      = if (gtaMatches (goNormalize sym) os ++ gtaMatches (goNormalize sym) us).isEmpty
        then .error .notFound
        else .ok (gtaMatches (goNormalize sym) os ++ gtaMatches (goNormalize sym) us) := by
  have hfields : ∀ f ∈ [GField.sectionF "official" os, GField.sectionF "unOfficial" us],
      f.Ok := by
    intro f hf
    simp only [List.mem_cons, List.not_mem_nil, or_false] at hf
    rcases hf with rfl | rfl
    · exact ⟨Or.inl rfl, hos⟩
    · exact ⟨Or.inr rfl, hus⟩
  rw [getTokenAddress_doc sym _ hfields]
  simp [gtaSpec]

/-- C5 witness: a symbol present once in `official` and once in
`unOfficial` resolves to both records, in order, through the theorem. -/
theorem claim_C5_witness :
    (∀ e ∈ [[("symbol", JTok.str "TOK"), ("mint", JTok.str "M1")]], TokElemOk e)
    ∧ (∀ e ∈ [[("symbol", JTok.str "TOK"), ("mint", JTok.str "M2")]], TokElemOk e)
    ∧ getTokenAddress "TOK"
        (.lbrace :: gFieldsToks
          [.sectionF "official" [[("symbol", JTok.str "TOK"), ("mint", JTok.str "M1")]],
           .sectionF "unOfficial" [[("symbol", JTok.str "TOK"), ("mint", JTok.str "M2")]]]
          ++ [.rbrace])
      = if (gtaMatches (goNormalize "TOK") [[("symbol", JTok.str "TOK"), ("mint", JTok.str "M1")]]
            ++ gtaMatches (goNormalize "TOK") [[("symbol", JTok.str "TOK"), ("mint", JTok.str "M2")]]).isEmpty
        then .error .notFound
        else .ok (gtaMatches (goNormalize "TOK") [[("symbol", JTok.str "TOK"), ("mint", JTok.str "M1")]]
            ++ gtaMatches (goNormalize "TOK") [[("symbol", JTok.str "TOK"), ("mint", JTok.str "M2")]]) :=
  ⟨by decide, by decide, claim_C5 "TOK" _ _ (by decide) (by decide)⟩

/-- C3 (amended): extra top-level fields are skipped harmlessly only when
their values are scalar: on documents whose extra fields carry scalar
values (and, for the pool traversal, whose string values do not spell a
switch label), both traversals return exactly the result of the document
with the extra fields removed.  The claim as stated — any extra field of
whatever shape is harmless — is false: an object- or array-valued extra
field derails the traversal (see the counterexample). -/
theorem claim_C3_amended :
    (∀ (sym : String) (fs : List GField), (∀ f ∈ fs, f.Ok) →
      getTokenAddress sym (.lbrace :: gFieldsToks fs ++ [.rbrace])
        = getTokenAddress sym (.lbrace :: gFieldsToks (fs.filter GField.isSection) ++ [.rbrace]))
    ∧ (∀ (m : String) (fs : List PField), (∀ f ∈ fs, f.Ok) →
      processPoolsFile m (.lbrace :: pFieldsToks fs ++ [.rbrace])
        = processPoolsFile m (.lbrace :: pFieldsToks (fs.filter PField.isKnown) ++ [.rbrace])) := by
  constructor
  · intro sym fs hok
    have hok2 : ∀ f ∈ fs.filter GField.isSection, f.Ok :=
      fun f hf => hok f (List.mem_of_mem_filter hf)
    rw [getTokenAddress_doc sym fs hok, getTokenAddress_doc sym _ hok2, gtaSpec_filter]
  · intro m fs hok
    have hok2 : ∀ f ∈ fs.filter PField.isKnown, f.Ok :=
      fun f hf => hok f (List.mem_of_mem_filter hf)
    rw [processPoolsFile_doc m fs hok, processPoolsFile_doc m _ hok2, ppfSpec_filter]

/-- C3 counterexample: the same token document with and without an
object-valued extra top-level field.  With it, the switch `default`
branch reads only the opening brace of the extra value, the loop walks
the inside of the nested object as if it were top level, ends at the
nested closing brace, and the `official` array holding `TOK` is never
reached: resolution fails with notFound instead of succeeding — the extra
field both changed the result and turned success into failure, refuting
the claim. -/
theorem claim_C3_counterexample :
    getTokenAddress "TOK"
        [.lbrace, .str "extra", .lbrace, .str "a", .num 1, .rbrace,
         .str "official", .lbrack,
         .lbrace, .str "symbol", .str "TOK", .str "mint", .str "M1", .rbrace,
         .rbrack, .str "unOfficial", .lbrack, .rbrack, .rbrace]
      = .error .notFound
    ∧ getTokenAddress "TOK"
        [.lbrace,
         .str "official", .lbrack,
         .lbrace, .str "symbol", .str "TOK", .str "mint", .str "M1", .rbrace,
         .rbrack, .str "unOfficial", .lbrack, .rbrack, .rbrace]
      = .ok [⟨"TOK", "", "M1", 0⟩] :=
  ⟨rfl, rfl⟩

/-- C3 witness: a scalar-valued extra field before the sections is
harmless in both traversals, through the amended theorem. -/
theorem claim_C3_witness :
    (∀ f ∈ [GField.scalarF "extra" (JTok.num 7),
        GField.sectionF "official" [[("symbol", JTok.str "TOK"), ("mint", JTok.str "M1")]],
        GField.sectionF "unOfficial" []], f.Ok)
    ∧ getTokenAddress "TOK"
        (.lbrace :: gFieldsToks [GField.scalarF "extra" (JTok.num 7),
          GField.sectionF "official" [[("symbol", JTok.str "TOK"), ("mint", JTok.str "M1")]],
          GField.sectionF "unOfficial" []] ++ [.rbrace])
      = getTokenAddress "TOK"
        (.lbrace :: gFieldsToks ([GField.scalarF "extra" (JTok.num 7),
          GField.sectionF "official" [[("symbol", JTok.str "TOK"), ("mint", JTok.str "M1")]],
          GField.sectionF "unOfficial" []].filter GField.isSection) ++ [.rbrace])
    ∧ (∀ f ∈ [PField.extraF "extra" (JTok.num 7), PField.nameF (JTok.str "mainnet"),
        PField.sectionF "official" [], PField.sectionF "unOfficial" []], f.Ok)
    ∧ processPoolsFile "X"
        (.lbrace :: pFieldsToks [PField.extraF "extra" (JTok.num 7),
          PField.nameF (JTok.str "mainnet"),
          PField.sectionF "official" [], PField.sectionF "unOfficial" []] ++ [.rbrace])
      = processPoolsFile "X"
        (.lbrace :: pFieldsToks ([PField.extraF "extra" (JTok.num 7),
          PField.nameF (JTok.str "mainnet"),
          PField.sectionF "official" [], PField.sectionF "unOfficial" []].filter PField.isKnown)
          ++ [.rbrace]) :=
  ⟨by decide, claim_C3_amended.1 "TOK" _ (by decide),
    by decide, claim_C3_amended.2 "X" _ (by decide)⟩

/-- Resolution depends on the query symbol only through its
normalization. -/
theorem getTokenAddress_norm_congr (a b : String) (ts : List JTok)
    (h : goNormalize a = goNormalize b) :
    getTokenAddress a ts = getTokenAddress b ts := by
  unfold getTokenAddress
  simp only [h]

/-- C4 (amended): query normalization is case-insensitive and strips one
leading dollar sigil — two queries equal after uppercasing resolve
identically, and a dollar-prefixed query resolves like its dollar-free
form.  On the record side, however, the comparison is exact: a record is
collected iff its stored symbol equals the uppercased, sigil-stripped
query byte-for-byte.  The claim's stronger statement — a record matches
whenever its symbol compared case-insensitively equals the stripped
query — is false (see the counterexample with a lowercase stored
symbol). -/
theorem claim_C4_amended :
    (∀ (a b : String) (ts : List JTok), goToUpper a = goToUpper b →
      getTokenAddress a ts = getTokenAddress b ts)
    ∧ (∀ (s : String) (ts : List JTok), s.data.head? ≠ some '$' →
      getTokenAddress ⟨'$' :: s.data⟩ ts = getTokenAddress s ts)
    ∧ (∀ (sym : String) (es : List (List (String × JTok))) (r : TokenInfo),
      r ∈ gtaMatches (goNormalize sym) es ↔
        ∃ e ∈ es, decodeTokenInfo (flatVal e) = some r ∧ r.symbol = goNormalize sym) := by
  refine ⟨?_, ?_, ?_⟩
  · intro a b ts h
    exact getTokenAddress_norm_congr a b ts (goNormalize_eq_of_upper a b h)
  · intro s ts hs
    exact getTokenAddress_norm_congr _ s ts (goNormalize_dollar_cons s hs)
  · intro sym es r
    unfold gtaMatches
    rw [List.mem_filterMap]
    constructor
    · rintro ⟨e, he, hf⟩
      cases hdec : decodeTokenInfo (flatVal e) with
      | none => rw [hdec] at hf; simp at hf
      | some t =>
        rw [hdec] at hf
        by_cases hts : t.symbol = goNormalize sym
        · simp only [Option.some_bind, if_pos hts, Option.some.injEq] at hf
          subst hf
          exact ⟨e, he, hdec, hts⟩
        · simp [hts] at hf
    · rintro ⟨e, he, hdec, hsym⟩
      exact ⟨e, he, by rw [hdec]; simp [hsym]⟩

/-- C4 counterexample: a token document storing symbol `usdc` (lowercase)
queried with `usdc`.  The stored symbol equals the sigil-stripped query
up to case (first conjunct), so by the claim the record should match; but
the code compares the stored symbol against the uppercased query `USDC`
exactly, finds nothing, and fails with notFound. -/
theorem claim_C4_counterexample :
    goToUpper (goTrimDollar "usdc") = goToUpper "usdc"
    ∧ getTokenAddress "usdc"
        [.lbrace, .str "official", .lbrack,
         .lbrace, .str "symbol", .str "usdc", .str "mint", .str "M2", .rbrace,
         .rbrack, .str "unOfficial", .lbrack, .rbrack, .rbrace]
      = .error .notFound :=
  ⟨rfl, rfl⟩

/-- C4 witness: case variants and a dollar-prefixed variant of `usdc`
resolve identically on a concrete document, and the match rule applied to
a concrete array, all through the amended theorem. -/
theorem claim_C4_witness :
    goToUpper "usdc" = goToUpper "USDC"
    ∧ getTokenAddress "usdc"
        [.lbrace, .str "official", .lbrack,
         .lbrace, .str "symbol", .str "USDC", .str "mint", .str "M3", .rbrace,
         .rbrack, .rbrace]
      = getTokenAddress "USDC"
        [.lbrace, .str "official", .lbrack,
         .lbrace, .str "symbol", .str "USDC", .str "mint", .str "M3", .rbrace,
         .rbrack, .rbrace]
    ∧ ("usdc" : String).data.head? ≠ some '$'
    ∧ getTokenAddress ⟨'$' :: ("usdc" : String).data⟩
        [.lbrace, .str "official", .lbrack,
         .lbrace, .str "symbol", .str "USDC", .str "mint", .str "M3", .rbrace,
         .rbrack, .rbrace]
      = getTokenAddress "usdc"
        [.lbrace, .str "official", .lbrack,
         .lbrace, .str "symbol", .str "USDC", .str "mint", .str "M3", .rbrace,
         .rbrack, .rbrace]
    ∧ (∀ r : TokenInfo,
        r ∈ gtaMatches (goNormalize "usdc") [[("symbol", JTok.str "USDC"), ("mint", JTok.str "M3")]] ↔
          ∃ e ∈ [[("symbol", JTok.str "USDC"), ("mint", JTok.str "M3")]],
            decodeTokenInfo (flatVal e) = some r ∧ r.symbol = goNormalize "usdc") :=
  ⟨by decide, claim_C4_amended.1 "usdc" "USDC" _ (by decide),
    by decide, claim_C4_amended.2.1 "usdc" _ (by decide),
    claim_C4_amended.2.2 "usdc" _⟩

/-- C6 (amended): a token document whose `official` value is present but
does not start an array fails with malformed (the array-start check at
src/main.go lines 350-352); but a document merely missing the `official`
field is not detected as malformed — the loop never sees the key, the
traversal completes, and with no matches resolution fails with notFound
(see the counterexample). -/
theorem claim_C6_amended :
    (∀ (sym : String) (t : JTok) (rest : List JTok), t ≠ .lbrack →
      getTokenAddress sym (.lbrace :: .str "official" :: t :: rest) = .error .malformed)
    ∧ (∀ (sym : String) (us : List (List (String × JTok))), (∀ e ∈ us, TokElemOk e) →
      gtaMatches (goNormalize sym) us = [] →
      getTokenAddress sym (.lbrace :: gFieldsToks [.sectionF "unOfficial" us] ++ [.rbrace])
        = .error .notFound) := by
  constructor
  · intro sym t rest ht
    cases t with
    | lbrack => exact absurd rfl ht
    | lbrace => rfl
    | rbrace => rfl
    | rbrack => rfl
    | str s => rfl
    | num n => rfl
    | boolv b => rfl
    | null => rfl
  · intro sym us hus hempty
    have hfields : ∀ f ∈ [GField.sectionF "unOfficial" us], f.Ok := by
      intro f hf
      simp only [List.mem_cons, List.not_mem_nil, or_false] at hf
      rcases hf with rfl
      exact ⟨Or.inr rfl, hus⟩
    rw [getTokenAddress_doc sym _ hfields]
    simp [gtaSpec, hempty]

/-- C6 counterexample: the empty token document has no `official` field
at all; the claim demands a malformed failure, but resolution traverses
it successfully and reports notFound. -/
theorem claim_C6_counterexample :
    getTokenAddress "TOK" [.lbrace, .rbrace] = .error .notFound
    ∧ GErr.notFound ≠ GErr.malformed :=
  ⟨rfl, by decide⟩

/-- C6 witness: a numeric `official` value is rejected as malformed, and
a document with only an (unmatching) `unOfficial` array reports notFound,
through the amended theorem. -/
theorem claim_C6_witness :
    (JTok.num 5 ≠ JTok.lbrack)
    ∧ getTokenAddress "TOK" [.lbrace, .str "official", .num 5, .rbrace] = .error .malformed
    ∧ (∀ e ∈ ([] : List (List (String × JTok))), TokElemOk e)
    ∧ gtaMatches (goNormalize "TOK") [] = []
    ∧ getTokenAddress "TOK"
        (.lbrace :: gFieldsToks [.sectionF "unOfficial" []] ++ [.rbrace]) = .error .notFound :=
  ⟨by decide, claim_C6_amended.1 "TOK" (JTok.num 5) [.rbrace] (by decide),
    by decide, rfl, claim_C6_amended.2 "TOK" [] (by decide) rfl⟩

/-- C7: when the prior aggregate value parses as a single bare
TokenPoolInfo but not as the current TokenPoolInfoList shape, the merge
promotes that entry into a one-element aggregate and applies the upsert
to it (so the legacy entry enters the written result rather than being
dropped); and the merge fails with malformed exactly when the prior value
parses under neither shape. -/
theorem claim_C7 (v : JVal) (t : TokenInfo) (ps : List RaydiumPool) :
    (∀ e : TokenPoolInfo, decodeTokenPoolInfoList v = none → decodeTokenPoolInfo v = some e →
      mergeFilteredPools (some v) t ps = .ok (upsertTokens [e] t ps))
    ∧ (mergeFilteredPools (some v) t ps = .error .malformed ↔
        decodeTokenPoolInfoList v = none ∧ decodeTokenPoolInfo v = none) := by
  constructor
  · intro e h1 h2
    simp [mergeFilteredPools, loadAggregate, h1, h2, Except.map]
  · unfold mergeFilteredPools loadAggregate
    cases h1 : decodeTokenPoolInfoList v with
    | some l => simp [h1, Except.map]
    | none =>
      cases h2 : decodeTokenPoolInfo v with
      | some e => simp [h1, h2, Except.map]
      | none => simp [h1, h2, Except.map]

/-- C7 witness: a prior value that fails the current shape (its `tokens`
field is a number) but succeeds as a bare TokenPoolInfo (where `tokens`
is an unknown, ignored key); the merge promotes the legacy entry and the
upsert appends the new one after it. -/
theorem claim_C7_witness :
    decodeTokenPoolInfoList (.obj [("tokens", .num 5)]) = none
    ∧ decodeTokenPoolInfo (.obj [("tokens", .num 5)]) = some ⟨zeroTokenInfo, []⟩
    ∧ mergeFilteredPools (some (.obj [("tokens", .num 5)])) ⟨"TOK", "", "M1", 9⟩ []
      = .ok (upsertTokens [⟨zeroTokenInfo, []⟩] ⟨"TOK", "", "M1", 9⟩ []) :=
  ⟨rfl, rfl, (claim_C7 (.obj [("tokens", .num 5)]) ⟨"TOK", "", "M1", 9⟩ []).1
    ⟨zeroTokenInfo, []⟩ rfl rfl⟩

/-- C8 (amended): on success the output file holds exactly the new
serialized aggregate; failures in read/parse/merge occur before
`os.Create` and leave the prior bytes untouched; but `os.Create`
truncates the file in place, so a failure during the encode/write leaves
a prefix of the new serialization — the empty file for an immediate
failure, never the prior content.  The rewrite is therefore not atomic
with respect to write failures (see the counterexample); the claim's
"either fully replaced or prior content untouched" holds only for
failures before the create step. -/
theorem claim_C8_amended (old : List Char) (prior : Option JVal) (t : TokenInfo)
    (ps : List RaydiumPool) :
    (∀ e, mergeFilteredPools prior t ps = .error e →
      ∀ o, diskAfterRun old prior t ps o = old)
    ∧ (∀ agg, mergeFilteredPools prior t ps = .ok agg →
      diskAfterRun old prior t ps .completed = renderAggregate agg
      ∧ (∀ k, diskAfterRun old prior t ps (.failedAfter k) = (renderAggregate agg).take k)
      ∧ diskAfterRun old prior t ps (.failedAfter 0) = []
      ∧ renderAggregate agg ≠ []) := by
  constructor
  · intro e he o
    cases o <;> simp [diskAfterRun, he]
  · intro agg hagg
    refine ⟨by simp [diskAfterRun, hagg], fun k => by simp [diskAfterRun, hagg],
      by simp [diskAfterRun, hagg], ?_⟩
    simp [renderAggregate]

/-- C8 counterexample: the prior file holds the serialized empty
aggregate; the merge succeeds and the write fails right after
`os.Create` truncated the file.  The disk ends up empty — neither the
previously persisted content nor the complete new aggregate — refuting
the claimed atomicity. -/
theorem claim_C8_counterexample :
    diskAfterRun (renderAggregate []) (some (.obj [("tokens", .arr [])]))
        ⟨"TOK", "", "M1", 9⟩ [] (.failedAfter 0) = []
    ∧ ([] : List Char) ≠ renderAggregate []
    ∧ ([] : List Char) ≠ renderAggregate [⟨⟨"TOK", "", "M1", 9⟩, []⟩] :=
  ⟨rfl, by decide, by decide⟩

/-- C8 witness: the amended theorem applied to the counterexample's
inputs, discharging the successful-merge hypothesis. -/
theorem claim_C8_witness :
    mergeFilteredPools (some (.obj [("tokens", .arr [])])) ⟨"TOK", "", "M1", 9⟩ []
      = .ok [⟨⟨"TOK", "", "M1", 9⟩, []⟩]
    ∧ (diskAfterRun (renderAggregate []) (some (.obj [("tokens", .arr [])]))
          ⟨"TOK", "", "M1", 9⟩ [] .completed
        = renderAggregate [⟨⟨"TOK", "", "M1", 9⟩, []⟩]
      ∧ (∀ k, diskAfterRun (renderAggregate []) (some (.obj [("tokens", .arr [])]))
          ⟨"TOK", "", "M1", 9⟩ [] (.failedAfter k)
        = (renderAggregate [⟨⟨"TOK", "", "M1", 9⟩, []⟩]).take k)
      ∧ diskAfterRun (renderAggregate []) (some (.obj [("tokens", .arr [])]))
          ⟨"TOK", "", "M1", 9⟩ [] (.failedAfter 0) = []
      ∧ renderAggregate [⟨⟨"TOK", "", "M1", 9⟩, []⟩] ≠ []) :=
  ⟨rfl, (claim_C8_amended (renderAggregate []) (some (.obj [("tokens", .arr [])]))
    ⟨"TOK", "", "M1", 9⟩ []).2 [⟨⟨"TOK", "", "M1", 9⟩, []⟩] rfl⟩

/-- C10: the pipeline fully decodes the pool document once for validation
and aborts — for every token stream and every queried mint, so the filter
stage never runs — whenever the decoded document has an empty or missing
`name`, a missing (nil) `official` field, or an empty `official` array;
in particular a structurally valid document with zero official pools is
rejected outright. -/
theorem claim_C10 (doc : JVal) (r : RaydiumResponse)
    (hdec : decodeRaydiumResponse doc = some r)
    (habort : r.name = "" ∨ r.official = none ∨ r.official = some []) :
    validateJSON doc = .error .malformed
    ∧ ∀ (ts : List JTok) (m : String), runPipeline doc ts m = .error .malformed := by
  have hval : validateJSON doc = .error .malformed := by
    unfold validateJSON
    rw [hdec]
    rcases habort with h | h | h
    · simp [h]
    · by_cases hn : r.name = "" <;> simp [h, hn]
    · by_cases hn : r.name = "" <;> simp [h, hn]
  refine ⟨hval, fun ts m => ?_⟩
  unfold runPipeline
  rw [hval]

/-- C10 witness: a structurally valid pool document whose `official`
array is empty is rejected by validation and the pipeline aborts for an
arbitrary stream and mint, through the theorem. -/
theorem claim_C10_witness :
    decodeRaydiumResponse
        (.obj [("name", .str "mainnet"), ("official", .arr []), ("unOfficial", .arr [])])
      = some ⟨"mainnet", some [], some []⟩
    ∧ (("mainnet" : String) = "" ∨ (some [] : Option (List RaydiumPool)) = none ∨
        (some [] : Option (List RaydiumPool)) = some [])
    ∧ validateJSON
        (.obj [("name", .str "mainnet"), ("official", .arr []), ("unOfficial", .arr [])])
      = .error .malformed
    ∧ ∀ (ts : List JTok) (m : String),
        runPipeline
          (.obj [("name", .str "mainnet"), ("official", .arr []), ("unOfficial", .arr [])])
          ts m
        = .error .malformed :=
  ⟨rfl, Or.inr (Or.inr rfl),
    (claim_C10
      (.obj [("name", .str "mainnet"), ("official", .arr []), ("unOfficial", .arr [])])
      ⟨"mainnet", some [], some []⟩ rfl (Or.inr (Or.inr rfl))).1,
    (claim_C10
      (.obj [("name", .str "mainnet"), ("official", .arr []), ("unOfficial", .arr [])])
      ⟨"mainnet", some [], some []⟩ rfl (Or.inr (Or.inr rfl))).2⟩
